import Mathlib

/-!
Shallow embedding of `src/get_birthday.py` (the fetch-retry-checkpoint
orchestrator) and proofs of the frozen claims about it.

Modelling conventions:
* A pandas cell that may hold `np.nan`, a Python string or an int is the
  sum type `PyVal`; purely numeric cells are `Option Int` (`none` = NaN).
* The CSV row layout of `athletes_age.csv` is `Record`: the `ath_id`
  column, the reference column at positional index 2 (`expected`), the
  historical date columns at positional indices 3.. (`hist`), and the
  column for today's date (`today`), which the orchestrator appends last
  when absent.
* Selenium/network effects are an oracle: `Nat → Attempt` gives what the
  browser shows on each numbered attempt of `get_age_with_retry`, and
  `Nat → Int → PyVal` gives the whole fetch outcome per (cycle, athlete id)
  for the orchestrator-level model.
-/

/-- A Python value that can appear as a fetch outcome or in today's
column: `np.nan`, a string (the `"DELETED"` sentinel), or an int. -/
inductive PyVal where
  | nan : PyVal
  | str : String → PyVal
  | int : Int → PyVal
deriving DecidableEq, Repr

/-- `pd.isna` on a `PyVal`: true exactly on NaN (strings and ints are not NA). -/
def pdIsna : PyVal → Bool
  | .nan => true
  | _ => false

/-- Python `==` against the `"DELETED"` sentinel, as used in
`if age == "DELETED"`: an int or NaN never equals a string; NaN equals
nothing. -/
def pyEqDeleted : PyVal → Bool
  | .str s => s == "DELETED"
  | _ => false

/-- One row of the athletes table.  `ath_id` and `expected` are numeric
cells (`none` = NaN); `hist` are the date columns at positional indices
3.. except today's; `today` is today's column, which can in principle
receive any merged outcome value, hence `PyVal`. -/
structure Record where
  ath_id : Option Int
  expected : Option Int
  hist : List (Option Int)
  today : PyVal
deriving DecidableEq, Repr

/-- Numeric view of a cell for row-wise `max` (`skipna=True` skips NaN;
a string cell never occurs in practice, see claim C10). -/
def cellNum : PyVal → Option Int
  | .int n => some n
  | _ => none

/-- `max` of a list of numeric cells with `skipna=True`: `none` when every
cell is NaN, otherwise the maximum of the present values. -/
def listMaxO : List (Option Int) → Option Int
  | [] => none
  | none :: rest => listMaxO rest
  | some x :: rest =>
    match listMaxO rest with
    | none => some x
    | some m => some (max x m)

/-- `ath_age.iloc[:, 3:].max(axis=1, skipna=True)` for one row: the date
columns are `hist` plus today's column (appended last). -/
def rowMax (r : Record) : Option Int :=
  listMaxO (r.hist ++ [cellNum r.today])

/-- pandas `Series.eq` on two numeric cells: NaN compares unequal to
everything, including NaN. -/
def nanEq : Option Int → Option Int → Bool
  | some x, some y => x == y
  | _, _ => false

/-- The backlog filter of line 129:
`~val.eq(rowmax) & ath_age[today_str].isna()` for one row. -/
def inBacklog (r : Record) : Bool :=
  !nanEq r.expected (rowMax r) && pdIsna r.today

/-- Placeholder row used only to state positional lookups; every lookup
the program performs is in range. -/
def defaultRec : Record := ⟨none, none, [], .nan⟩

/-- `ath_age.index[~val.eq(rowmax) & ath_age[today_str].isna()].tolist()`:
the positional indices of the rows passing the backlog filter. -/
def backlogIdx (st : List Record) : List Nat :=
  (List.range st.length).filter fun i => inBacklog (st.getD i defaultRec)

/- ### The extractor: `extract_first(pat_age_compiled, html, cast=int)`
with pattern `Age:\s*(\d+)` under `re.DOTALL | re.IGNORECASE`. -/

/-- ASCII whitespace matched by the regex class `\s`. -/
def isWsChar (c : Char) : Bool :=
  c == ' ' || c == '\t' || c == '\n' || c == '\r' || c == '\x0b' || c == '\x0c'

/-- Value of a non-empty digit run, as Python `int()` of the captured group. -/
def digitsToNat (ds : List Char) : Nat :=
  ds.foldl (fun acc c => 10 * acc + (c.toNat - '0'.toNat)) 0

/-- Try to match `Age:\s*(\d+)` (case-insensitively) anchored at the head
of the character list; returns the captured integer on success. -/
def matchAgeAt : List Char → Option Nat
  | c1 :: c2 :: c3 :: c4 :: rest =>
    if c1.toLower == 'a' && c2.toLower == 'g' && c3.toLower == 'e' && c4 == ':' then
      let ds := (rest.dropWhile isWsChar).takeWhile Char.isDigit
      if ds.isEmpty then none else some (digitsToNat ds)
    else none
  | _ => none

/-- `re.search`: leftmost match of `Age:\s*(\d+)` in the text. -/
def searchAge : List Char → Option Nat
  | [] => none
  | c :: cs =>
    match matchAgeAt (c :: cs) with
    | some n => some n
    | none => searchAge cs

/-- `extract_first(pat_age_compiled, html, cast=int)`: NaN when the
pattern does not match, else the captured digits as an int (the cast of a
digit run never raises). -/
def extract_first (html : String) : Option Nat :=
  searchAge html.data

/- ### `get_age_with_retry` -/

/-- What one attempt of the retry loop observes: an exception raised
somewhere inside the `try` block, the deleted-profile error toast, or a
rendered page with the given source. -/
inductive Attempt where
  | raised : Attempt
  | toast : Attempt
  | page : String → Attempt
deriving DecidableEq

/-- Instrumented result of `get_age_with_retry`: the returned value plus
how many attempts were entered, how often the extractor ran, and the
total fixed deleted-profile penalty sleep (`time.sleep(5)`) in time units. -/
structure RetryTrace where
  result : PyVal
  tries : Nat
  extractCalls : Nat
  penaltySleep : Nat
deriving DecidableEq, Repr

/-- The loop of `get_age_with_retry`, instrumented.  `attempt` is the
1-based attempt number, `remaining` the attempts still allowed. -/
def getAgeLoop (env : Nat → Attempt) (attempt remaining : Nat) : RetryTrace :=
  match remaining with
  | 0 => ⟨.nan, 0, 0, 0⟩
  | r + 1 =>
    match env attempt with
    | .raised =>
      let t := getAgeLoop env (attempt + 1) r
      ⟨t.result, t.tries + 1, t.extractCalls, t.penaltySleep⟩
    | .toast => ⟨.str "DELETED", 1, 0, 5⟩
    | .page html =>
      match extract_first html with
      | some age =>
        if 3 ≤ age ∧ age ≤ 200 then ⟨.int age, 1, 1, 0⟩
        else
          let t := getAgeLoop env (attempt + 1) r
          ⟨t.result, t.tries + 1, t.extractCalls + 1, t.penaltySleep⟩
      | none =>
        let t := getAgeLoop env (attempt + 1) r
        ⟨t.result, t.tries + 1, t.extractCalls + 1, t.penaltySleep⟩

/-- `get_age_with_retry(driver, url, max_tries)`: runs up to `max_tries`
attempts and returns the scraped value, `"DELETED"`, or NaN. -/
def get_age_with_retry (env : Nat → Attempt) (max_tries : Nat) : PyVal :=
  (getAgeLoop env 1 max_tries).result

/- ### Chunk partition (lines 137-138) -/

/-- `math.ceil(a / b)` for the positive divisors the orchestrator uses. -/
def cdiv (a b : Nat) : Nat :=
  (a + b - 1) / b

/-- Slicing loop behind `chunksOf1`, structurally recursive on a fuel
bound so it evaluates by reduction; with `fuel >= l.length` it cuts
contiguous slices of size `sz + 1` until the list is exhausted. -/
def chunksFuel (sz : Nat) : Nat → List α → List (List α)
  | _, [] => []
  | 0, x :: xs => [x :: xs]
  | fuel + 1, x :: xs =>
    ((x :: xs).take (sz + 1)) :: chunksFuel sz fuel ((x :: xs).drop (sz + 1))

/-- `[l[k:k+(sz+1)] for k in range(0, len(l), sz+1)]`: contiguous slices
of size `sz+1`; the divisor is passed minus one so the slicing step is
positive by construction (the source guarantees `chunk_size >= 1` because
the backlog is non-empty at this point). -/
def chunksOf1 (sz : Nat) (l : List α) : List (List α) :=
  chunksFuel sz l.length l

/-- The chunk list of lines 137-138 for a chunk size `cs`.  `cs = 0`
arises only for an empty backlog, which the source never partitions
(`if not idx_list: break` runs first); there the partition is empty. -/
def chunksOf (cs : Nat) (l : List α) : List (List α) :=
  match cs with
  | 0 => []
  | sz + 1 => chunksOf1 sz l

/- ### Worker pool and merge (lines 76-106 and 140-157) -/

/-- The outcome a worker records for backlog index `i`
(lines 95-103): NaN without contacting the fetcher when `ath_id` is NaN,
otherwise whatever `get_age_with_retry` produces for that athlete in this
cycle — abstracted as the oracle `fetchO : cycle → ath_id → PyVal`. -/
def outcomeOf (fetchO : Nat → Int → PyVal) (c : Nat) (st : List Record) (i : Nat) : PyVal :=
  match (st.getD i defaultRec).ath_id with
  | none => .nan
  | some a => fetchO c a

/-- `_process_chunk_age`: one worker's ordered result list for its chunk. -/
def chunkResults (fetchO : Nat → Int → PyVal) (c : Nat) (st : List Record)
    (ch : List Nat) : List (Nat × PyVal) :=
  ch.map fun i => (i, outcomeOf fetchO c st i)

/-- `cycle_results` after the pool join, in chunk-submission order (claim
C9 shows the merge does not depend on this order). -/
def cycleResults (fetchO : Nat → Int → PyVal) (nw : Int) (c : Nat)
    (st : List Record) : List (Nat × PyVal) :=
  let bl := backlogIdx st
  let cs := cdiv bl.length (max 1 nw).toNat
  ((chunksOf cs bl).map (chunkResults fetchO c st)).flatten

/-- `ath_age.loc[ridx, today_str] = age`: point-update of today's column
at positional label `i` (every label the merge writes is a live row). -/
def setToday (st : List Record) (i : Nat) (v : PyVal) : List Record :=
  match st[i]? with
  | none => st
  | some r => st.set i { r with today := v }

/-- The write half of the merge loop (lines 148-152): every non-`DELETED`
outcome is written into today's column at its index. -/
def writeResults (rs : List (Nat × PyVal)) (st : List Record) : List Record :=
  rs.foldl (fun acc p => if pyEqDeleted p.2 then acc else setToday acc p.1 p.2) st

/-- `ids_to_remove`: the indices whose outcome equals `"DELETED"`. -/
def delIdxs (rs : List (Nat × PyVal)) : List Nat :=
  (rs.filter fun p => pyEqDeleted p.2).map Prod.fst

/-- `ath_age.drop(index=ids).reset_index(drop=True)`: delete the rows at
the given positional labels and renumber. -/
def dropRows (st : List Record) (ids : List Nat) : List Record :=
  (st.enum.filter fun p => !(ids.contains p.1)).map Prod.snd

/-- The merge-and-purge of lines 147-157: write all found/NaN outcomes,
then (only when some outcome was `"DELETED"`) drop the deleted rows in one
batch and renumber. -/
def applyResults (rs : List (Nat × PyVal)) (st : List Record) : List Record :=
  let st2 := writeResults rs st
  let ids := delIdxs rs
  if ids.isEmpty then st2 else dropRows st2 ids

/- ### The cycle loop (lines 125-161) -/

/-- One dispatched cycle, including the pool construction:
`ProcessPoolExecutor(max_workers=n_workers)` raises `ValueError` when
`n_workers <= 0` (the chunk partition before it clamps its divisor, the
pool does not). -/
def cycleStepE (fetchO : Nat → Int → PyVal) (nw : Int) (c : Nat)
    (st : List Record) : Except String (List Record) :=
  if nw ≤ 0 then .error "ValueError: max_workers must be greater than 0"
  else .ok (applyResults (cycleResults fetchO nw c st) st)

/-- One dispatched cycle in the normal regime `0 < n_workers`. -/
def cycleStep (fetchO : Nat → Int → PyVal) (nw : Int) (c : Nat)
    (st : List Record) : List Record :=
  applyResults (cycleResults fetchO nw c st) st

/-- The `for cycle in range(1, 6)` loop from the backlog filter on:
recompute the backlog, stop when it is empty, otherwise dispatch, merge,
purge and checkpoint.  Returns the final in-memory table and the list of
checkpointed tables (`to_csv` at line 160), one per completed cycle. -/
def runLoopE (fetchO : Nat → Int → PyVal) (nw : Int) :
    Nat → Nat → List Record → Except String (List Record × List (List Record))
  | 0, _, st => .ok (st, [])
  | fuel + 1, c, st =>
    if backlogIdx st = [] then .ok (st, [])
    else
      match cycleStepE fetchO nw c st with
      | .error e => .error e
      | .ok st2 =>
        match runLoopE fetchO nw fuel (c + 1) st2 with
        | .error e => .error e
        | .ok (fin, saves) => .ok (fin, st2 :: saves)

/-- `run_scraping_cycle` after a successful load and today-column setup:
at most 5 cycles starting at cycle number 1. -/
def run_scraping_cycle (fetchO : Nat → Int → PyVal) (nw : Int)
    (st : List Record) : Except String (List Record × List (List Record)) :=
  runLoopE fetchO nw 5 1 st

/- ### Definitions taken from the SPEC's words (for refinement claims) -/

/-- Modelled from the spec: "the most recent non-absent observed value
across all historical dates" — the last present value of the historical
columns. -/
def lastPresent (l : List (Option Int)) : Option Int :=
  (l.filterMap id).getLast?

/-- Modelled from the spec (claim C1's membership condition):
`observed_value[today]` is absent AND the most recent non-absent
historical observed value does not equal `expected_value` (comparisons
involving an absent value count as unequal, as in the source). -/
def claimBacklogCond (r : Record) : Bool :=
  pdIsna r.today && !nanEq r.expected (lastPresent r.hist)

/-- Modelled from the spec (claim C2's size condition): max chunk size
minus min chunk size is at most 1, stated pairwise. -/
def balancedSizes (chs : List (List Nat)) : Bool :=
  chs.all fun c1 => chs.all fun c2 => c1.length ≤ c2.length + 1

/- ### Derived predicates used by the claims -/

/-- The validated extraction of lines 67-69: the value accepted by
`not pd.isna(age) and 3 <= age <= 200`, if any. -/
def validAge (html : String) : Option Nat :=
  match extract_first html with
  | some n => if 3 ≤ n ∧ n ≤ 200 then some n else none
  | none => none

/-- An attempt that fails: an exception was raised inside the try block,
or the page yielded no valid in-range value. -/
def tryFails (a : Attempt) : Prop :=
  a = .raised ∨ ∃ s, a = .page s ∧ validAge s = none

/-- The shape of every value `get_age_with_retry` can return: NaN, the
`"DELETED"` sentinel, or an int in `[3, 200]`. -/
def outcomeOk (v : PyVal) : Prop :=
  v = .nan ∨ v = .str "DELETED" ∨ ∃ n : Int, v = .int n ∧ 3 ≤ n ∧ n ≤ 200

/-- The shape of every value today's column can hold: NaN or an int in
`[3, 200]`. -/
def todayOk (v : PyVal) : Prop :=
  v = .nan ∨ ∃ n : Int, v = .int n ∧ 3 ≤ n ∧ n ≤ 200

/- ### Lemmas about the retry loop -/

theorem getAgeLoop_fail (env : Nat → Attempt) (attempt r : Nat)
    (h : tryFails (env attempt)) :
    (getAgeLoop env attempt (r + 1)).result = (getAgeLoop env (attempt + 1) r).result := by
  rcases h with h | ⟨s, hs, hv⟩
  · simp [getAgeLoop, h]
  · unfold validAge at hv
    rcases hext : extract_first s with _ | n
    · simp [getAgeLoop, hs, hext]
    · rw [hext] at hv
      by_cases hr : 3 ≤ n ∧ n ≤ 200
      · simp [hr] at hv
      · simp [getAgeLoop, hs, hext, hr]

theorem getAgeLoop_success (env : Nat → Attempt) (attempt r : Nat) (s : String)
    (v : Nat) (hs : env attempt = .page s) (hv : validAge s = some v) :
    getAgeLoop env attempt (r + 1) = ⟨.int v, 1, 1, 0⟩ := by
  unfold validAge at hv
  rcases hext : extract_first s with _ | n
  · rw [hext] at hv; cases hv
  · rw [hext] at hv
    by_cases hr : 3 ≤ n ∧ n ≤ 200
    · simp only [hr, if_true] at hv
      cases hv
      simp [getAgeLoop, hs, hext, hr]
    · simp [hr] at hv

theorem getAgeLoop_outcomeOk (env : Nat → Attempt) :
    ∀ r attempt, outcomeOk (getAgeLoop env attempt r).result := by
  intro r
  induction r with
  | zero => intro attempt; exact Or.inl rfl
  | succ r ih =>
    intro attempt
    rcases henv : env attempt with _ | _ | s
    · simpa [getAgeLoop, henv] using ih (attempt + 1)
    · simp only [getAgeLoop, henv]
      exact Or.inr (Or.inl rfl)
    · rcases hext : extract_first s with _ | n
      · simpa [getAgeLoop, henv, hext] using ih (attempt + 1)
      · by_cases hr : 3 ≤ n ∧ n ≤ 200
        · simp only [getAgeLoop, henv, hext, if_pos hr]
          exact Or.inr (Or.inr ⟨n, rfl, by exact_mod_cast hr.1, by exact_mod_cast hr.2⟩)
        · simpa [getAgeLoop, henv, hext, hr] using ih (attempt + 1)

/- ### Lemmas about the merge step -/

theorem setToday_mem {st : List Record} {i : Nat} {v : PyVal} {r : Record}
    (h : r ∈ setToday st i v) : r ∈ st ∨ ∃ r0, r0 ∈ st ∧ r = { r0 with today := v } := by
  unfold setToday at h
  rcases hg : st[i]? with _ | r0
  · rw [hg] at h; exact Or.inl h
  · rw [hg] at h
    rcases List.mem_or_eq_of_mem_set h with h2 | h2
    · exact Or.inl h2
    · exact Or.inr ⟨r0, List.getElem?_mem hg, h2⟩

theorem writeResults_today_pred (P : PyVal → Prop) :
    ∀ (rs : List (Nat × PyVal)) (st : List Record),
      (∀ r ∈ st, P r.today) →
      (∀ p ∈ rs, pyEqDeleted p.2 = false → P p.2) →
      ∀ r ∈ writeResults rs st, P r.today := by
  intro rs
  induction rs with
  | nil => intro st hst _ r hr; exact hst r hr
  | cons p rs ih =>
    intro st hst hrs r hr
    rw [writeResults, List.foldl_cons] at hr
    by_cases hd : pyEqDeleted p.2 = true
    · rw [if_pos hd] at hr
      exact ih st hst (fun q hq => hrs q (List.mem_cons_of_mem p hq)) r hr
    · rw [if_neg hd] at hr
      refine ih (setToday st p.1 p.2) ?_ (fun q hq => hrs q (List.mem_cons_of_mem p hq)) r hr
      intro r2 hr2
      rcases setToday_mem hr2 with h2 | ⟨r0, _, rfl⟩
      · exact hst r2 h2
      · exact hrs p (List.mem_cons_self p rs) (Bool.eq_false_iff.mpr hd)

theorem dropRows_subset {st : List Record} {ids : List Nat} {r : Record}
    (h : r ∈ dropRows st ids) : r ∈ st := by
  unfold dropRows at h
  rcases List.mem_map.mp h with ⟨⟨i, r2⟩, hp, rfl⟩
  have hp2 := (List.mem_filter.mp hp).1
  rw [List.enum_eq_zip_range] at hp2
  exact (List.of_mem_zip hp2).2

theorem applyResults_today_pred (P : PyVal → Prop) (rs : List (Nat × PyVal))
    (st : List Record) (hst : ∀ r ∈ st, P r.today)
    (hrs : ∀ p ∈ rs, pyEqDeleted p.2 = false → P p.2) :
    ∀ r ∈ applyResults rs st, P r.today := by
  intro r hr
  unfold applyResults at hr
  by_cases he : (delIdxs rs).isEmpty
  · rw [if_pos he] at hr
    exact writeResults_today_pred P rs st hst hrs r hr
  · rw [if_neg he] at hr
    exact writeResults_today_pred P rs st hst hrs r (dropRows_subset hr)

/- ### Claim theorems: the retry loop -/

/-- Claim C5: for every try oracle whose first try shows the
deleted-profile indicator (and any try budget admitting that first try),
`get_age_with_retry` returns `"DELETED"` immediately: exactly one try is
entered, the extractor is never invoked, and the only wait incurred is
the fixed 5-unit penalty sleep. -/
theorem C5_deleted_short_circuit (env : Nat → Attempt) (max_tries : Nat)
    (henv : env 1 = .toast) (hm : 1 ≤ max_tries) :
    get_age_with_retry env max_tries = .str "DELETED" ∧
    getAgeLoop env 1 max_tries = ⟨.str "DELETED", 1, 0, 5⟩ := by
  rcases max_tries with _ | m
  · cases hm
  · constructor
    · simp [get_age_with_retry, getAgeLoop, henv]
    · simp [getAgeLoop, henv]

/-- Witness for C5 at a concrete oracle and `max_tries = 3`. -/
theorem C5_deleted_short_circuit_witness :
    get_age_with_retry (fun _ => Attempt.toast) 3 = .str "DELETED" ∧
    getAgeLoop (fun _ => Attempt.toast) 1 3 = ⟨.str "DELETED", 1, 0, 5⟩ :=
  C5_deleted_short_circuit (fun _ => Attempt.toast) 3 rfl (by omega)

/-- Claim C6: with `max_tries = 3`, an oracle that fails validation on
tries 1 and 2 (a raised exception counts as a failed try and is not
propagated — the function is total over `tryFails` attempts) yields
`Found(v)` when try 3 extracts a valid in-range `v`, and NaN
(`Unresolved`) when try 3 also fails. -/
theorem C6_retry_budget (env : Nat → Attempt)
    (h1 : tryFails (env 1)) (h2 : tryFails (env 2)) :
    (∀ s v, env 3 = .page s → validAge s = some v →
      get_age_with_retry env 3 = .int v) ∧
    (tryFails (env 3) → get_age_with_retry env 3 = .nan) := by
  have e1 : (getAgeLoop env 1 3).result = (getAgeLoop env 2 2).result :=
    getAgeLoop_fail env 1 2 h1
  have e2 : (getAgeLoop env 2 2).result = (getAgeLoop env 3 1).result :=
    getAgeLoop_fail env 2 1 h2
  constructor
  · intro s v hs hv
    have e3 : getAgeLoop env 3 1 = ⟨.int v, 1, 1, 0⟩ :=
      getAgeLoop_success env 3 0 s v hs hv
    rw [get_age_with_retry, e1, e2, e3]
  · intro h3
    have e3 : (getAgeLoop env 3 1).result = (getAgeLoop env 4 0).result :=
      getAgeLoop_fail env 3 0 h3
    rw [get_age_with_retry, e1, e2, e3]
    rfl

/-- Oracle for the C6 witness: an exception on try 1, an out-of-range
page on try 2, a valid page on try 3. -/
def envFlaky : Nat → Attempt
  | 1 => .raised
  | 2 => .page "Age: 2"
  | _ => .page "Age: 34"

/-- Witness for C6 at concrete oracles. -/
theorem C6_retry_budget_witness :
    get_age_with_retry envFlaky 3 = .int 34 ∧
    get_age_with_retry (fun _ => Attempt.raised) 3 = .nan :=
  ⟨(C6_retry_budget envFlaky (Or.inl rfl)
      (Or.inr ⟨"Age: 2", rfl, by decide⟩)).1 "Age: 34" 34 rfl (by decide),
   (C6_retry_budget (fun _ => Attempt.raised) (Or.inl rfl) (Or.inl rfl)).2 (Or.inl rfl)⟩

/-- Claim C7: only integers in `[3, 200]` are ever produced as found
values — extracted text `"Age: 2"` or `"Age: abc"` yields NaN
(`Unresolved`) while `"Age: 34"` yields `Found(34)` — and the merge step
preserves the invariant that today's column holds only NaN or an in-range
integer when every merged outcome is a retry-loop outcome. -/
theorem C7_range_enforcement :
    (∀ env max_tries n, get_age_with_retry env max_tries = PyVal.int n →
      3 ≤ n ∧ n ≤ 200) ∧
    get_age_with_retry (fun _ => Attempt.page "Age: 2") 3 = .nan ∧
    get_age_with_retry (fun _ => Attempt.page "Age: abc") 3 = .nan ∧
    get_age_with_retry (fun _ => Attempt.page "Age: 34") 3 = .int 34 ∧
    (∀ rs st, (∀ p ∈ rs, outcomeOk p.2) → (∀ r ∈ st, todayOk r.today) →
      ∀ r ∈ applyResults rs st, todayOk r.today) := by
  refine ⟨?_, by decide, by decide, by decide, ?_⟩
  · intro env max_tries n h
    rcases getAgeLoop_outcomeOk env max_tries 1 with h0 | h0 | ⟨m, h0, hm3, hm200⟩ <;>
      rw [get_age_with_retry] at h <;> rw [h0] at h
    · cases h
    · cases h
    · cases h; exact ⟨hm3, hm200⟩
  · intro rs st hrs hst
    refine applyResults_today_pred todayOk rs st hst ?_
    intro p hp hnd
    rcases hrs p hp with h | h | ⟨n, h, h3, h200⟩
    · exact Or.inl h
    · rw [h] at hnd; cases hnd
    · exact Or.inr ⟨n, h, h3, h200⟩

/-- Claim C10: every `get_age_with_retry` outcome is the `"DELETED"`
sentinel string, NaN, or an int in `[3, 200]`; the merge's Python
equality test against `"DELETED"` holds exactly on the sentinel (an int
or NaN is never classified as deleted); and merging retry-loop outcomes
never writes a string into today's column. -/
theorem C10_outcome_partition :
    (∀ env max_tries, outcomeOk (get_age_with_retry env max_tries)) ∧
    (∀ v, pyEqDeleted v = true ↔ v = .str "DELETED") ∧
    (∀ rs st, (∀ p ∈ rs, outcomeOk p.2) → (∀ r ∈ st, ∀ s, r.today ≠ .str s) →
      ∀ r ∈ applyResults rs st, ∀ s, r.today ≠ .str s) := by
  refine ⟨fun env m => getAgeLoop_outcomeOk env m 1, ?_, ?_⟩
  · intro v
    constructor
    · intro h
      cases v with
      | nan => cases h
      | int n => cases h
      | str s =>
        rw [pyEqDeleted, beq_iff_eq] at h
        rw [h]
    · intro h; rw [h]; rfl
  · intro rs st hrs hst
    refine applyResults_today_pred (fun v => ∀ s, v ≠ .str s) rs st hst ?_
    intro p hp hnd s
    rcases hrs p hp with h | h | ⟨n, h, _, _⟩
    · rw [h]; intro hc; cases hc
    · rw [h] at hnd; cases hnd
    · rw [h]; intro hc; cases hc

/- ### Lemmas about the row maximum and the backlog filter -/

/-- The present (non-NaN) observed values of a row's date columns,
today's included. -/
def obsVals (r : Record) : List Int :=
  (r.hist ++ [cellNum r.today]).filterMap id

theorem listMaxO_eq_none (l : List (Option Int)) :
    listMaxO l = none ↔ l.filterMap id = [] := by
  induction l with
  | nil => simp [listMaxO]
  | cons o rest ih =>
    cases o with
    | none => simpa [listMaxO] using ih
    | some x =>
      rw [listMaxO]
      cases h : listMaxO rest <;> simp [List.filterMap_cons]

theorem listMaxO_eq_some (l : List (Option Int)) (m : Int) :
    listMaxO l = some m ↔
      m ∈ l.filterMap id ∧ ∀ x ∈ l.filterMap id, x ≤ m := by
  induction l generalizing m with
  | nil => simp [listMaxO]
  | cons o rest ih =>
    cases o with
    | none => simpa [listMaxO, List.filterMap_cons] using ih m
    | some x =>
      rw [listMaxO]
      cases hrest : listMaxO rest with
      | none =>
        have hempty := (listMaxO_eq_none rest).mp hrest
        simp only [List.filterMap_cons, id_eq, hempty, List.mem_singleton,
          List.mem_cons, List.not_mem_nil, or_false, Option.some.injEq]
        constructor
        · rintro rfl
          exact ⟨rfl, fun y hy => by rw [hy]⟩
        · rintro ⟨rfl, _⟩; rfl
      | some m' =>
        have hm' := (ih m').mp hrest
        simp only [List.filterMap_cons, id_eq, List.mem_cons, Option.some.injEq]
        constructor
        · rintro rfl
          rcases le_total x m' with h | h
          · rw [max_eq_right h]
            exact ⟨Or.inr hm'.1, fun y hy => by
              rcases hy with rfl | hy
              · exact h
              · exact hm'.2 y hy⟩
          · rw [max_eq_left h]
            exact ⟨Or.inl rfl, fun y hy => by
              rcases hy with rfl | hy
              · exact le_refl y
              · exact (hm'.2 y hy).trans h⟩
        · rintro ⟨hmem, hub⟩
          have hxm : x ≤ m := hub x (Or.inl rfl)
          have hm'm : m' ≤ m := hub m' (Or.inr hm'.1)
          have hmax : m ≤ max x m' := by
            rcases hmem with rfl | hmem
            · exact le_max_left _ _
            · exact le_trans (hm'.2 m hmem) (le_max_right _ _)
          exact (le_antisymm hmax (max_le hxm hm'm)).symm

theorem nanEq_eq_true (a b : Option Int) :
    nanEq a b = true ↔ ∃ e, a = some e ∧ b = some e := by
  cases a <;> cases b <;> simp [nanEq]
  exact eq_comm

theorem pdIsna_eq_true (v : PyVal) : pdIsna v = true ↔ v = .nan := by
  cases v <;> simp [pdIsna]

theorem inBacklog_iff (r : Record) :
    inBacklog r = true ↔
      r.today = .nan ∧
      ¬ ∃ e, r.expected = some e ∧ e ∈ obsVals r ∧ ∀ x ∈ obsVals r, x ≤ e := by
  rw [inBacklog, Bool.and_eq_true, Bool.not_eq_true', pdIsna_eq_true, and_comm]
  apply and_congr_right
  intro _
  rw [← Bool.not_eq_true, nanEq_eq_true]
  apply not_congr
  apply exists_congr
  intro e
  apply and_congr_right
  intro _
  rw [rowMax, listMaxO_eq_some]
  rfl

theorem mem_backlogIdx (st : List Record) (i : Nat) :
    i ∈ backlogIdx st ↔ i < st.length ∧ inBacklog (st.getD i defaultRec) = true := by
  rw [backlogIdx, List.mem_filter, List.mem_range]

theorem backlogIdx_nodup (st : List Record) : (backlogIdx st).Nodup :=
  (List.nodup_range st.length).filter _

/- ### Claim theorems: backlog computation -/

/-- Claim C1 counterexample: a row whose most recent (last) non-absent
historical value (40) equals `expected_value` but whose historical
maximum (50) does not.  The claim's membership condition excludes the
row from the backlog; the code's filter (line 129, which compares
`expected` against the row-wise `max`) includes it. -/
theorem C1_backlog_counterexample :
    backlogIdx [⟨some 1, some 40, [some 50, some 40], .nan⟩] = [0] ∧
    claimBacklogCond ⟨some 1, some 40, [some 50, some 40], .nan⟩ = false := by
  decide

/-- Claim C1 (amended): the backlog computed at the start of a cycle is
exactly the set of record indices whose today's observed value is absent
AND whose `expected_value` does NOT equal the maximum of the non-absent
observed values across all date columns (a comparison involving an
absent value counts as unequal, so rows with absent `expected` or with no
observed value at all are included). -/
theorem C1_backlog_characterization (st : List Record) :
    (backlogIdx st).Nodup ∧
    ∀ i, i ∈ backlogIdx st ↔
      i < st.length ∧ (st.getD i defaultRec).today = .nan ∧
      ¬ ∃ e, (st.getD i defaultRec).expected = some e ∧
        e ∈ obsVals (st.getD i defaultRec) ∧
        ∀ x ∈ obsVals (st.getD i defaultRec), x ≤ e := by
  refine ⟨backlogIdx_nodup st, fun i => ?_⟩
  rw [mem_backlogIdx, inBacklog_iff]

/- ### Lemmas about the chunk partition -/

theorem chunksFuel_eq_of_le (sz : Nat) :
    ∀ (fuel fuel' : Nat) (l : List α), l.length ≤ fuel → l.length ≤ fuel' →
      chunksFuel sz fuel l = chunksFuel sz fuel' l := by
  intro fuel
  induction fuel with
  | zero =>
    intro fuel' l hl _
    cases l with
    | nil => cases fuel' <;> rfl
    | cons x xs => simp at hl
  | succ fuel ih =>
    intro fuel' l hl hl'
    cases l with
    | nil => cases fuel' <;> rfl
    | cons x xs =>
      cases fuel' with
      | zero => simp at hl'
      | succ fuel'' =>
        rw [chunksFuel, chunksFuel]
        congr 1
        simp only [List.length_cons] at hl hl'
        refine ih fuel'' _ ?_ ?_ <;>
          (rw [List.length_drop]; simp only [List.length_cons]; omega)

theorem chunksOf1_nil (sz : Nat) : chunksOf1 sz ([] : List α) = [] := rfl

theorem chunksOf1_cons (sz : Nat) (x : α) (xs : List α) :
    chunksOf1 sz (x :: xs) =
      ((x :: xs).take (sz + 1)) :: chunksOf1 sz ((x :: xs).drop (sz + 1)) := by
  rw [chunksOf1, chunksOf1]
  show chunksFuel sz (xs.length + 1) (x :: xs) = _
  rw [chunksFuel]
  congr 1
  refine chunksFuel_eq_of_le sz _ _ _ ?_ le_rfl
  rw [List.length_drop]
  simp only [List.length_cons]
  omega

theorem chunksOf1_flatten (sz : Nat) (l : List α) :
    (chunksOf1 sz l).flatten = l := by
  generalize hn : l.length = n
  induction n using Nat.strong_induction_on generalizing l with
  | _ n ih =>
    cases l with
    | nil => rfl
    | cons x xs =>
      rw [chunksOf1_cons, List.flatten_cons]
      have hrec : (chunksOf1 sz ((x :: xs).drop (sz + 1))).flatten =
          (x :: xs).drop (sz + 1) := by
        refine ih ((x :: xs).drop (sz + 1)).length ?_ _ rfl
        rw [← hn]
        simp only [List.length_drop, List.length_cons]
        omega
      rw [hrec, List.take_append_drop]

theorem chunksOf1_mem_sizes (sz : Nat) (l : List α) :
    ∀ ch ∈ chunksOf1 sz l, ch ≠ [] ∧ ch.length ≤ sz + 1 := by
  generalize hn : l.length = n
  induction n using Nat.strong_induction_on generalizing l with
  | _ n ih =>
    cases l with
    | nil => intro ch hch; cases hch
    | cons x xs =>
      intro ch hch
      rw [chunksOf1_cons] at hch
      rcases List.mem_cons.mp hch with rfl | hch
      · constructor
        · rw [List.take_succ_cons]
          exact List.cons_ne_nil x _
        · rw [List.length_take]
          exact min_le_left _ _
      · refine ih ((x :: xs).drop (sz + 1)).length ?_ _ rfl ch hch
        rw [← hn]
        simp only [List.length_drop, List.length_cons]
        omega

theorem chunksOf1_ne_nil (sz : Nat) (l : List α) (h : l ≠ []) :
    chunksOf1 sz l ≠ [] := by
  cases l with
  | nil => cases h rfl
  | cons x xs => rw [chunksOf1_cons]; exact List.cons_ne_nil _ _

theorem chunksOf1_dropLast_sizes (sz : Nat) (l : List α) :
    ∀ ch ∈ (chunksOf1 sz l).dropLast, ch.length = sz + 1 := by
  generalize hn : l.length = n
  induction n using Nat.strong_induction_on generalizing l with
  | _ n ih =>
    cases l with
    | nil => intro ch hch; cases hch
    | cons x xs =>
      intro ch hch
      rw [chunksOf1_cons] at hch
      cases hdrop : (x :: xs).drop (sz + 1) with
      | nil =>
        rw [hdrop, chunksOf1_nil] at hch
        cases hch
      | cons y ys =>
        rw [hdrop,
          List.dropLast_cons_of_ne_nil (chunksOf1_ne_nil sz _ (List.cons_ne_nil y ys))] at hch
        rcases List.mem_cons.mp hch with rfl | hch
        · have hlen : sz + 1 < (x :: xs).length := by
            have hd := congrArg List.length hdrop
            rw [List.length_drop] at hd
            simp only [List.length_cons] at hd ⊢
            omega
          rw [List.length_take]
          omega
        · refine ih ((x :: xs).drop (sz + 1)).length ?_ _ rfl ch (by rw [hdrop]; exact hch)
          rw [← hn]
          simp only [List.length_drop, List.length_cons]
          omega

theorem cdiv_pos {a b : Nat} (ha : 0 < a) (hb : 0 < b) : 0 < cdiv a b :=
  Nat.div_pos (by omega) hb

theorem maxW_toNat_pos (W : Int) : 0 < (max 1 W).toNat := by
  have h : (1 : Int) ≤ max 1 W := le_max_left 1 W
  omega

/- ### Claim theorems: chunk partition -/

/-- Claim C2 counterexample: a backlog of 7 indices split for 3 workers
gives `chunk_size = ceil(7/3) = 3` and chunk sizes `[3, 3, 1]`, whose
max minus min is 2, violating the claimed near-equal balance. -/
theorem C2_chunk_counterexample :
    (chunksOf (cdiv (List.range 7).length (max 1 (3 : Int)).toNat)
        (List.range 7)).map List.length = [3, 3, 1] ∧
    balancedSizes (chunksOf (cdiv (List.range 7).length (max 1 (3 : Int)).toNat)
        (List.range 7)) = false := by
  decide

/-- Claim C2 (amended): for every non-empty backlog and every worker
count, the concatenation of the chunks is exactly the backlog (each index
exactly once, no duplicates, no omissions); every chunk is non-empty of
size at most `ceil(N / max(1, W))`; and every chunk except possibly the
last has exactly that size.  The "max minus min chunk size at most 1"
part of the claim is false (see the counterexample): the last chunk may
be shorter by more than 1. -/
theorem C2_chunk_partition (l : List Nat) (W : Int) (hl : l ≠ []) :
    (chunksOf (cdiv l.length (max 1 W).toNat) l).flatten = l ∧
    (∀ ch ∈ chunksOf (cdiv l.length (max 1 W).toNat) l,
      ch ≠ [] ∧ ch.length ≤ cdiv l.length (max 1 W).toNat) ∧
    (∀ ch ∈ (chunksOf (cdiv l.length (max 1 W).toNat) l).dropLast,
      ch.length = cdiv l.length (max 1 W).toNat) := by
  have hpos : 0 < cdiv l.length (max 1 W).toNat :=
    cdiv_pos (List.length_pos.mpr hl) (maxW_toNat_pos W)
  rcases hcs : cdiv l.length (max 1 W).toNat with _ | sz
  · omega
  · rw [chunksOf]
    exact ⟨chunksOf1_flatten sz l, chunksOf1_mem_sizes sz l, chunksOf1_dropLast_sizes sz l⟩

/-- Witness for C2 at the concrete backlog `[0..6]` and 3 workers. -/
theorem C2_chunk_partition_witness :
    (chunksOf (cdiv (List.range 7).length (max 1 (3 : Int)).toNat)
        (List.range 7)).flatten = List.range 7 ∧
    (∀ ch ∈ chunksOf (cdiv (List.range 7).length (max 1 (3 : Int)).toNat) (List.range 7),
      ch ≠ [] ∧ ch.length ≤ cdiv (List.range 7).length (max 1 (3 : Int)).toNat) ∧
    (∀ ch ∈ (chunksOf (cdiv (List.range 7).length (max 1 (3 : Int)).toNat)
        (List.range 7)).dropLast,
      ch.length = cdiv (List.range 7).length (max 1 (3 : Int)).toNat) :=
  C2_chunk_partition (List.range 7) 3 (by decide)

/- ### Claim theorems: degenerate worker count -/

theorem chunksOf1_all (sz : Nat) (l : List α) (hne : l ≠ [])
    (h : l.length ≤ sz + 1) : chunksOf1 sz l = [l] := by
  cases l with
  | nil => cases hne rfl
  | cons x xs =>
    rw [chunksOf1_cons, List.take_of_length_le h, List.drop_eq_nil_of_le h, chunksOf1_nil]

theorem cdiv_one (n : Nat) : cdiv n 1 = n := by
  simp [cdiv]

/-- One-row store whose single record is backlogged: `expected` is
present but no observed value exists yet. -/
def stSolo : List Record := [⟨some 5, some 40, [], .nan⟩]

/-- Claim C3 counterexample: with the one-row backlogged store, a worker
count of 0 makes the run fail at pool construction
(`ProcessPoolExecutor` raises `ValueError` for `max_workers <= 0`),
whereas with `n_workers = 1` the same cycle completes and checkpoints —
so `n_workers <= 0` is not equivalent to `n_workers = 1`. -/
theorem C3_pool_failure_counterexample :
    run_scraping_cycle (fun _ _ => PyVal.int 41) 0 stSolo =
      .error "ValueError: max_workers must be greater than 0" ∧
    run_scraping_cycle (fun _ _ => PyVal.int 41) 1 stSolo =
      .ok ([⟨some 5, some 40, [], .int 41⟩], [[⟨some 5, some 40, [], .int 41⟩]]) := by
  constructor <;> rfl

/-- Claim C3 (amended): for every `n_workers <= 0` and non-empty backlog,
the partition step alone behaves as if `n_workers` were 1 — the clamped
divisor yields a single chunk holding the whole backlog — but the cycle
then fails at pool construction with `ValueError` instead of running to
completion. -/
theorem C3_clamped_chunking_but_pool_error (fetchO : Nat → Int → PyVal) (W : Int)
    (c : Nat) (st : List Record) (hW : W ≤ 0) (hbl : backlogIdx st ≠ []) :
    chunksOf (cdiv (backlogIdx st).length (max 1 W).toNat) (backlogIdx st) =
      [backlogIdx st] ∧
    cycleStepE fetchO W c st = .error "ValueError: max_workers must be greater than 0" := by
  constructor
  · have hmax : max 1 W = 1 := max_eq_left (by omega)
    rw [hmax]
    show chunksOf (cdiv (backlogIdx st).length 1) (backlogIdx st) = _
    rw [cdiv_one]
    have hpos : 0 < (backlogIdx st).length := List.length_pos.mpr hbl
    rcases hlen : (backlogIdx st).length with _ | k
    · omega
    · rw [chunksOf]
      exact chunksOf1_all k (backlogIdx st) hbl (by omega)
  · rw [cycleStepE, if_pos hW]

/-- Witness for the amended C3 at the concrete store and `n_workers = 0`. -/
theorem C3_clamped_chunking_but_pool_error_witness :
    chunksOf (cdiv (backlogIdx stSolo).length (max 1 (0 : Int)).toNat) (backlogIdx stSolo) =
      [backlogIdx stSolo] ∧
    cycleStepE (fun _ _ => PyVal.int 41) 0 1 stSolo =
      .error "ValueError: max_workers must be greater than 0" :=
  C3_clamped_chunking_but_pool_error (fun _ _ => PyVal.int 41) 0 1 stSolo
    (by omega) (by decide)

/- ### Lemmas about point updates and the purge -/

theorem setToday_of_isNone {st : List Record} {i : Nat} {v : PyVal}
    (h : st[i]? = none) : setToday st i v = st := by
  unfold setToday; rw [h]

theorem setToday_of_isSome {st : List Record} {i : Nat} {v : PyVal} {r : Record}
    (h : st[i]? = some r) : setToday st i v = st.set i { r with today := v } := by
  unfold setToday; rw [h]

theorem setToday_getElem?_ne {st : List Record} {i j : Nat} {v : PyVal}
    (h : i ≠ j) : (setToday st i v)[j]? = st[j]? := by
  unfold setToday
  rcases hi : st[i]? with _ | r
  · rfl
  · exact List.getElem?_set_ne h

theorem setToday_comm (st : List Record) {i j : Nat} (v w : PyVal) (hij : i ≠ j) :
    setToday (setToday st i v) j w = setToday (setToday st j w) i v := by
  rcases hi : st[i]? with _ | ri
  · rw [setToday_of_isNone hi,
      setToday_of_isNone (show (setToday st j w)[i]? = none by
        rw [setToday_getElem?_ne (Ne.symm hij)]; exact hi)]
  · rcases hj : st[j]? with _ | rj
    · rw [setToday_of_isNone hj,
        setToday_of_isNone (show (setToday st i v)[j]? = none by
          rw [setToday_getElem?_ne hij]; exact hj)]
    · rw [setToday_of_isSome hi, setToday_of_isSome hj,
        setToday_of_isSome (show (st.set i { ri with today := v })[j]? = some rj by
          rw [List.getElem?_set_ne hij]; exact hj),
        setToday_of_isSome (show (st.set j { rj with today := w })[i]? = some ri by
          rw [List.getElem?_set_ne (Ne.symm hij)]; exact hi)]
      exact List.set_comm _ _ st hij

theorem writeResults_perm (rs rs' : List (Nat × PyVal)) (st : List Record)
    (hperm : rs.Perm rs') (hnd : (rs.map Prod.fst).Nodup) :
    writeResults rs st = writeResults rs' st := by
  unfold writeResults
  refine hperm.foldl_eq' ?_ st
  intro x hx y hy z
  by_cases hdx : pyEqDeleted x.2 = true
  · by_cases hdy : pyEqDeleted y.2 = true <;> simp [hdx, hdy]
  · by_cases hdy : pyEqDeleted y.2 = true
    · simp [hdx, hdy]
    · simp only [if_neg hdx, if_neg hdy]
      by_cases hxy : x.1 = y.1
      · rw [List.inj_on_of_nodup_map hnd hx hy hxy]
      · exact setToday_comm z x.2 y.2 hxy

theorem delIdxs_perm {rs rs' : List (Nat × PyVal)} (h : rs.Perm rs') :
    (delIdxs rs).Perm (delIdxs rs') :=
  (h.filter _).map _

theorem dropRows_nil (st : List Record) : dropRows st [] = st := by
  unfold dropRows
  have hfun : (fun p : Nat × Record => !(([] : List Nat).contains p.1)) = fun _ => true := by
    funext p; rfl
  rw [hfun, List.filter_true, List.enum_map_snd]

theorem applyResults_eq (rs : List (Nat × PyVal)) (st : List Record) :
    applyResults rs st = dropRows (writeResults rs st) (delIdxs rs) := by
  unfold applyResults
  by_cases h : (delIdxs rs).isEmpty = true
  · rw [if_pos h, List.isEmpty_iff.mp h, dropRows_nil]
  · rw [if_neg h]

theorem dropRows_congr (st : List Record) (ids ids' : List Nat)
    (h : ∀ a, a ∈ ids ↔ a ∈ ids') : dropRows st ids = dropRows st ids' := by
  unfold dropRows
  congr 1
  refine List.filter_congr ?_
  intro p _
  have hc : ids.contains p.1 = ids'.contains p.1 := by
    rw [Bool.eq_iff_iff, List.elem_iff, List.elem_iff]
    exact h p.1
  rw [hc]

/- ### Claim theorems: merge commutativity -/

/-- Claim C9: for every cycle result multiset with pairwise-distinct
in-range indices, merging and purging in any completion order produces
the same Record Store: the merge step is commutative over the pairs. -/
theorem C9_merge_commutative (rs rs' : List (Nat × PyVal)) (st : List Record)
    (hperm : rs.Perm rs') (hnd : (rs.map Prod.fst).Nodup)
    (hvalid : ∀ p ∈ rs, p.1 < st.length) :
    applyResults rs st = applyResults rs' st := by
  rw [applyResults_eq, applyResults_eq, writeResults_perm rs rs' st hperm hnd]
  exact dropRows_congr _ _ _ (fun a => (delIdxs_perm hperm).mem_iff)

/-- Witness for C9: swapping the completion order of a found value and a
deletion leaves the merged store unchanged. -/
theorem C9_merge_commutative_witness :
    applyResults [(0, PyVal.int 10), (1, PyVal.str "DELETED")]
      [⟨some 1, some 30, [], .nan⟩, ⟨some 2, some 31, [], .nan⟩] =
    applyResults [(1, PyVal.str "DELETED"), (0, PyVal.int 10)]
      [⟨some 1, some 30, [], .nan⟩, ⟨some 2, some 31, [], .nan⟩] :=
  C9_merge_commutative _ _ _ (List.Perm.swap _ _ _) (by decide) (by decide)

/- ### Lemmas about the cycle and the run loop -/

theorem chunksOf_nil (cs : Nat) : chunksOf cs ([] : List Nat) = [] := by
  cases cs <;> rfl

theorem cycleResults_eq (fetchO : Nat → Int → PyVal) (nw : Int) (c : Nat)
    (st : List Record) :
    cycleResults fetchO nw c st =
      (backlogIdx st).map fun i => (i, outcomeOf fetchO c st i) := by
  unfold cycleResults chunkResults
  rw [← List.map_flatten]
  congr 1
  cases backlogIdx st with
  | nil => rw [chunksOf_nil]; rfl
  | cons x xs =>
    have hpos : 0 < cdiv (x :: xs).length (max 1 nw).toNat :=
      cdiv_pos (by simp) (maxW_toNat_pos nw)
    rcases hcs : cdiv (x :: xs).length (max 1 nw).toNat with _ | sz
    · omega
    · exact chunksOf1_flatten sz _

theorem cycleStepE_pos (fetchO : Nat → Int → PyVal) {nw : Int} (c : Nat)
    (st : List Record) (h : 0 < nw) :
    cycleStepE fetchO nw c st = .ok (cycleStep fetchO nw c st) := by
  rw [cycleStepE, if_neg (by omega), cycleStep]

theorem runLoopE_spec (fetchO : Nat → Int → PyVal) {nw : Int} (h : 0 < nw) :
    ∀ (fuel c : Nat) (st : List Record), ∃ fin saves,
      runLoopE fetchO nw fuel c st = .ok (fin, saves) ∧
      saves.length ≤ fuel ∧
      (saves.length < fuel → backlogIdx fin = []) ∧
      fin = saves.getLastD st := by
  intro fuel
  induction fuel with
  | zero => intro c st; exact ⟨st, [], rfl, le_rfl, by intro h; simp at h, rfl⟩
  | succ fuel ih =>
    intro c st
    by_cases hbl : backlogIdx st = []
    · refine ⟨st, [], ?_, by simp, fun _ => hbl, rfl⟩
      rw [runLoopE, if_pos hbl]
    · obtain ⟨fin, saves, hrun, hlen, hstop, hfin⟩ := ih (c + 1) (cycleStep fetchO nw c st)
      refine ⟨fin, cycleStep fetchO nw c st :: saves, ?_, by simpa using hlen, ?_, ?_⟩
      · rw [runLoopE, if_neg hbl, cycleStepE_pos fetchO c st h]
        dsimp only
        rw [hrun]
      · intro hlt
        exact hstop (by simp only [List.length_cons] at hlt; omega)
      · rw [List.getLastD_cons]; exact hfin

/- ### Claim theorems: termination and checkpointing -/

/-- Claim C8: for every initial Record Store and fetch oracle (with a
positive worker count, as in every invocation of the program), the
orchestrator completes successfully, executes and checkpoints at most 5
cycles (one save per completed cycle, so the final store is the last
checkpoint, or the initial store when cycle 1's backlog is already
empty), and when it stops before exhausting the 5-cycle budget the
freshly recomputed backlog of the final store is empty — it stops in the
first cycle with an empty backlog. -/
theorem C8_termination (fetchO : Nat → Int → PyVal) (nw : Int) (st : List Record)
    (h : 0 < nw) :
    ∃ fin saves, run_scraping_cycle fetchO nw st = .ok (fin, saves) ∧
      saves.length ≤ 5 ∧
      (saves.length < 5 → backlogIdx fin = []) ∧
      fin = saves.getLastD st :=
  runLoopE_spec fetchO h 5 1 st

/-- Witness for C8 at a concrete oracle, the default 10 workers and a
one-row store. -/
theorem C8_termination_witness :
    ∃ fin saves, run_scraping_cycle (fun _ _ => PyVal.int 41) 10 stSolo = .ok (fin, saves) ∧
      saves.length ≤ 5 ∧
      (saves.length < 5 → backlogIdx fin = []) ∧
      fin = saves.getLastD stSolo :=
  C8_termination (fun _ _ => PyVal.int 41) 10 stSolo (by omega)

/- ### Lemmas tracking athlete ids through a cycle -/

theorem setToday_length (st : List Record) (i : Nat) (v : PyVal) :
    (setToday st i v).length = st.length := by
  unfold setToday
  cases st[i]? <;> simp

theorem writeResults_length (rs : List (Nat × PyVal)) :
    ∀ st : List Record, (writeResults rs st).length = st.length := by
  induction rs with
  | nil => intro st; rfl
  | cons p rs ih =>
    intro st
    rw [writeResults, List.foldl_cons, ← writeResults]
    by_cases hd : pyEqDeleted p.2 = true
    · rw [if_pos hd, ih st]
    · rw [if_neg hd, ih (setToday st p.1 p.2), setToday_length]

theorem setToday_athAt (st : List Record) (i : Nat) (v : PyVal) (j : Nat) :
    ((setToday st i v).getD j defaultRec).ath_id = (st.getD j defaultRec).ath_id := by
  rcases hi : st[i]? with _ | r
  · rw [setToday_of_isNone hi]
  · rw [setToday_of_isSome hi, List.getD_eq_getElem?_getD, List.getD_eq_getElem?_getD]
    by_cases hj : i = j
    · subst hj
      have hlt : i < st.length := by
        have := List.getElem?_eq_some_iff.mp hi
        exact this.1
      rw [List.getElem?_set_self (by simpa using hlt), hi]
      rfl
    · rw [List.getElem?_set_ne hj]

theorem writeResults_athAt (rs : List (Nat × PyVal)) :
    ∀ (st : List Record) (j : Nat),
      ((writeResults rs st).getD j defaultRec).ath_id = (st.getD j defaultRec).ath_id := by
  induction rs with
  | nil => intro st j; rfl
  | cons p rs ih =>
    intro st j
    rw [writeResults, List.foldl_cons, ← writeResults]
    by_cases hd : pyEqDeleted p.2 = true
    · rw [if_pos hd, ih st]
    · rw [if_neg hd, ih (setToday st p.1 p.2), setToday_athAt]

theorem mem_dropRows {st : List Record} {ids : List Nat} {r : Record}
    (h : r ∈ dropRows st ids) :
    ∃ j, j < st.length ∧ ids.contains j = false ∧ st.getD j defaultRec = r := by
  unfold dropRows at h
  rcases List.mem_map.mp h with ⟨⟨j, r2⟩, hp, rfl⟩
  rcases List.mem_filter.mp hp with ⟨henum, hcont⟩
  have hget : st[j]? = some r2 := List.mem_enum_iff_getElem?.mp henum
  have hlt : j < st.length := (List.getElem?_eq_some_iff.mp hget).1
  refine ⟨j, hlt, ?_, ?_⟩
  · simpa using hcont
  · rw [List.getD_eq_getElem?_getD, hget]
    rfl

theorem mem_applyResults {rs : List (Nat × PyVal)} {st : List Record} {r : Record}
    (h : r ∈ applyResults rs st) :
    ∃ j, j < st.length ∧ (delIdxs rs).contains j = false ∧
      (writeResults rs st).getD j defaultRec = r := by
  rw [applyResults_eq] at h
  rcases mem_dropRows h with ⟨j, hlt, hcont, hget⟩
  rw [writeResults_length] at hlt
  exact ⟨j, hlt, hcont, hget⟩

theorem backlogIdx_lt {st : List Record} {j : Nat} (h : j ∈ backlogIdx st) :
    j < st.length :=
  ((mem_backlogIdx st j).mp h).1

theorem getD_mem {st : List Record} {j : Nat} (h : j < st.length) :
    st.getD j defaultRec ∈ st := by
  rw [List.getD_eq_getElem st defaultRec h]
  exact List.getElem_mem h

theorem contains_delIdxs_of_deleted {fetchO : Nat → Int → PyVal} {nw : Int}
    {c : Nat} {st : List Record} {i : Nat} {a : Int}
    (hib : i ∈ backlogIdx st) (hai : (st.getD i defaultRec).ath_id = some a)
    (hdel : fetchO c a = .str "DELETED") :
    (delIdxs (cycleResults fetchO nw c st)).contains i = true := by
  rw [cycleResults_eq]
  have hout : outcomeOf fetchO c st i = .str "DELETED" := by
    rw [outcomeOf, hai]
    exact hdel
  have hmem : (i, outcomeOf fetchO c st i) ∈
      (backlogIdx st).map (fun k => (k, outcomeOf fetchO c st k)) :=
    List.mem_map.mpr ⟨i, hib, rfl⟩
  have hfil : (i, outcomeOf fetchO c st i) ∈
      ((backlogIdx st).map fun k => (k, outcomeOf fetchO c st k)).filter
        (fun p => pyEqDeleted p.2) :=
    List.mem_filter.mpr ⟨hmem, by rw [hout]; rfl⟩
  rw [List.elem_iff]
  exact List.mem_map.mpr ⟨_, hfil, rfl⟩

theorem cycleStep_removes_deleted {fetchO : Nat → Int → PyVal} {nw : Int}
    {c : Nat} {st : List Record} {i : Nat} {a : Int}
    (huniq : ∀ j, j < st.length → (st.getD j defaultRec).ath_id = some a → j = i)
    (hib : i ∈ backlogIdx st) (hai : (st.getD i defaultRec).ath_id = some a)
    (hdel : fetchO c a = .str "DELETED") :
    ∀ r ∈ cycleStep fetchO nw c st, r.ath_id ≠ some a := by
  intro r hr heq
  rw [cycleStep] at hr
  rcases mem_applyResults hr with ⟨j, hlt, hcont, hget⟩
  have hath : (st.getD j defaultRec).ath_id = some a := by
    rw [← writeResults_athAt, hget, heq]
  have hji : j = i := huniq j hlt hath
  rw [hji, contains_delIdxs_of_deleted hib hai hdel] at hcont
  cases hcont

theorem cycleStep_preserves_absence {fetchO : Nat → Int → PyVal} {nw : Int}
    {c : Nat} {st : List Record} {a : Int}
    (habs : ∀ r ∈ st, r.ath_id ≠ some a) :
    ∀ r ∈ cycleStep fetchO nw c st, r.ath_id ≠ some a := by
  intro r hr heq
  rw [cycleStep] at hr
  rcases mem_applyResults hr with ⟨j, hlt, _, hget⟩
  have hath : (st.getD j defaultRec).ath_id = some a := by
    rw [← writeResults_athAt, hget, heq]
  exact habs (st.getD j defaultRec) (getD_mem hlt) hath

theorem runLoopE_absence (fetchO : Nat → Int → PyVal) {nw : Int} (h : 0 < nw)
    (a : Int) : ∀ (fuel c : Nat) (st : List Record),
    (∀ r ∈ st, r.ath_id ≠ some a) →
    ∃ fin saves, runLoopE fetchO nw fuel c st = .ok (fin, saves) ∧
      (∀ s ∈ saves, ∀ r ∈ s, r.ath_id ≠ some a) ∧
      ∀ r ∈ fin, r.ath_id ≠ some a := by
  intro fuel
  induction fuel with
  | zero =>
    intro c st habs
    exact ⟨st, [], rfl, fun s hs => absurd hs (List.not_mem_nil s), habs⟩
  | succ fuel ih =>
    intro c st habs
    by_cases hbl : backlogIdx st = []
    · refine ⟨st, [], ?_, fun s hs => absurd hs (List.not_mem_nil s), habs⟩
      rw [runLoopE, if_pos hbl]
    · obtain ⟨fin, saves, hrun, hsaves, hfin⟩ :=
        ih (c + 1) (cycleStep fetchO nw c st) (cycleStep_preserves_absence habs)
      refine ⟨fin, cycleStep fetchO nw c st :: saves, ?_, ?_, hfin⟩
      · rw [runLoopE, if_neg hbl, cycleStepE_pos fetchO c st h]
        dsimp only
        rw [hrun]
      · intro s hs
        rcases List.mem_cons.mp hs with rfl | hs
        · exact cycleStep_preserves_absence habs
        · exact hsaves s hs

/- ### Claim theorem: deleted permanence -/

/-- Claim C4: if, in some cycle `c` of a run (started at any reachable
store `st` with at least one cycle of budget left), the unique record
carrying athlete id `a` is backlogged and its fetch outcome is
`Deleted`, then the run completes with that row removed in cycle `c`
itself (the first checkpointed store already lacks it), every later
checkpointed store lacks it, no later cycle's backlog can contain it,
and — since only records of the current store are ever fetched — it is
never re-fetched within the run. -/
theorem C4_deleted_permanence (fetchO : Nat → Int → PyVal) (nw : Int)
    (fuel c : Nat) (st : List Record) (a : Int) (i : Nat)
    (hnw : 0 < nw)
    (huniq : ∀ j, j < st.length → (st.getD j defaultRec).ath_id = some a → j = i)
    (hib : i ∈ backlogIdx st)
    (hai : (st.getD i defaultRec).ath_id = some a)
    (hdel : fetchO c a = .str "DELETED") :
    ∃ fin saves, runLoopE fetchO nw (fuel + 1) c st = .ok (fin, saves) ∧
      saves ≠ [] ∧
      (∀ s ∈ saves, ∀ r ∈ s, r.ath_id ≠ some a) ∧
      (∀ s ∈ saves, ∀ j ∈ backlogIdx s, (s.getD j defaultRec).ath_id ≠ some a) ∧
      ∀ r ∈ fin, r.ath_id ≠ some a := by
  have hbl : backlogIdx st ≠ [] := by
    intro hnil
    rw [hnil] at hib
    cases hib
  have hdel1 : ∀ r ∈ cycleStep fetchO nw c st, r.ath_id ≠ some a :=
    cycleStep_removes_deleted huniq hib hai hdel
  obtain ⟨fin, saves, hrun, hsaves, hfin⟩ :=
    runLoopE_absence fetchO hnw a fuel (c + 1) (cycleStep fetchO nw c st) hdel1
  have habs : ∀ s ∈ cycleStep fetchO nw c st :: saves, ∀ r ∈ s, r.ath_id ≠ some a := by
    intro s hs
    rcases List.mem_cons.mp hs with rfl | hs
    · exact hdel1
    · exact hsaves s hs
  refine ⟨fin, cycleStep fetchO nw c st :: saves, ?_, List.cons_ne_nil _ _, habs, ?_, hfin⟩
  · rw [runLoopE, if_neg hbl, cycleStepE_pos fetchO c st hnw]
    dsimp only
    rw [hrun]
  · intro s hs j hj
    exact habs s hs (s.getD j defaultRec) (getD_mem (backlogIdx_lt hj))

/-- Witness for C4: a one-row store whose single athlete (id 7) is
deleted in cycle 1 of a 5-cycle run with one worker. -/
theorem C4_deleted_permanence_witness :
    ∃ fin saves,
      runLoopE (fun _ _ => PyVal.str "DELETED") 1 5 1
        [⟨some 7, some 40, [], .nan⟩] = .ok (fin, saves) ∧
      saves ≠ [] ∧
      (∀ s ∈ saves, ∀ r ∈ s, r.ath_id ≠ some 7) ∧
      (∀ s ∈ saves, ∀ j ∈ backlogIdx s, (s.getD j defaultRec).ath_id ≠ some 7) ∧
      ∀ r ∈ fin, r.ath_id ≠ some 7 :=
  C4_deleted_permanence (fun _ _ => PyVal.str "DELETED") 1 4 1
    [⟨some 7, some 40, [], .nan⟩] 7 0 (by omega)
    (by intro j hj _; simpa using hj) (by decide) (by decide) rfl
